import Mathlib

/-!
# gtsam_points: BALM eigen-feature derivatives and closed-form alignment errors

A shallow embedding of

* `include/gtsam_ext/factors/balm_feature.hpp` (`BALMFeature`: constructor, `Ji`, `Hij`, `Fmn`),
* `include/gtsam_points/registration/alignment.hpp` (`impl::sum_diffs`, `impl::sum_sq_errors`).

Modelling conventions.

* `double` is modelled by exact arithmetic in a linearly ordered field `K` (so the results hold
  for the reals, and every definition can be evaluated over the rationals).
* A division whose divisor is zero has no value in exact arithmetic (the `double` result is an
  infinity or a NaN).  Every division of the source goes through `fdiv` / `mdiv`, which return
  `none` in that case; a function returns `none` exactly when one of the divisions it performs
  has a zero divisor.
* Eigen's fixed-size types are matrices over `Fin`: `Vector3d` is a `3 × 1` matrix,
  `Matrix<double, 1, 3>` a `1 × 3` matrix, `Matrix3d` a `3 × 3` matrix.  Products of Eigen
  expressions are matrix products, taken left to right as in the source.
* `int num_points` is an integer; the number of points of a container is its length (sizes are
  far below `2 ^ 31`, where the conversion from `size_t` to `int` keeps the value).
* `Eigen::SelfAdjointEigenSolver` is a library routine; the constructor takes it as a parameter
  `eig`, about which nothing is assumed.
-/

namespace gtsam_ext

open Matrix

variable {K : Type} [LinearOrderedField K]

/-- Eigen `Vector3d`: a column vector with three rows. -/
abbrev Vector3 (K : Type) := Matrix (Fin 3) (Fin 1) K

/-- Eigen `Matrix<double, 1, 3>`: a row vector with three columns. -/
abbrev RowVector3 (K : Type) := Matrix (Fin 1) (Fin 3) K

/-- Eigen `Matrix3d`. -/
abbrev Matrix3 (K : Type) := Matrix (Fin 3) (Fin 3) K

/-- Scalar division `a / b`; it has no value when the divisor is zero. -/
def fdiv (a b : K) : Option K :=
  if b = 0 then none else some (a / b)

/-- Division of every coefficient of a matrix by a scalar (Eigen `M / b`); it has no value when
the divisor is zero. -/
def mdiv {m n : Type} (M : Matrix m n K) (b : K) : Option (Matrix m n K) :=
  if b = 0 then none else some (Matrix.of fun i j => M i j / b)

/-- Eigen `M.col(k)` of a `3 × 3` matrix, as a column vector. -/
def col3 (M : Matrix3 K) (k : Fin 3) : Vector3 K :=
  Matrix.of fun i _ => M i k

/-- The data members of `struct BALMFeature`. -/
structure BALMFeature (K : Type) where
  num_points : Int
  mean : Vector3 K
  cov : Matrix3 K
  eigenvalues : Fin 3 → K
  eigenvectors : Matrix3 K

namespace BALMFeature

/-- The accumulation loop of the constructor: `sum_pts += pt; sum_cross += pt * pt.transpose()`
starting from zero. -/
def accumulate (points : List (Vector3 K)) : Vector3 K × Matrix3 K :=
  points.foldl (fun s pt => (s.1 + pt, s.2 + pt * ptᵀ)) (0, 0)

/-- The constructor `BALMFeature(points)`.  The eigen solver is the parameter `eig`, returning the
pair `(eigenvalues, eigenvectors)` of the covariance. -/
def build (eig : Matrix3 K → (Fin 3 → K) × Matrix3 K) (points : List (Vector3 K)) :
    Option (BALMFeature K) :=
  let sum_pts := (accumulate points).1
  let sum_cross := (accumulate points).2
  (mdiv sum_pts (points.length : K)).bind fun mean =>
  (mdiv (sum_cross - mean * sum_ptsᵀ) (points.length : K)).bind fun cov =>
  some
    { num_points := (points.length : Int)
      mean := mean
      cov := cov
      eigenvalues := (eig cov).1
      eigenvectors := (eig cov).2 }

/-- The member template `Ji<k>(p_i)`:
`2.0 / num_points * (p_i - mean).transpose() * u * u.transpose()` with `u = eigenvectors.col(k)`. -/
def Ji (f : BALMFeature K) (k : Fin 3) (p_i : Vector3 K) : Option (RowVector3 K) :=
  let u := col3 f.eigenvectors k
  (fdiv (2 : K) (f.num_points : K)).bind fun c =>
  some (c • (p_i - f.mean)ᵀ * u * uᵀ)

/-- The member template `Fmn<m, n>(pt)`. -/
def Fmn (f : BALMFeature K) (m n : Fin 3) (pt : Vector3 K) : Option (RowVector3 K) :=
  if m = n then
    some 0
  else
    let l_m := f.eigenvalues m
    let l_n := f.eigenvalues n
    let u_m := col3 f.eigenvectors m
    let u_n := col3 f.eigenvectors n
    (mdiv (pt - f.mean)ᵀ ((f.num_points : K) * (l_n - l_m))).bind fun lhs =>
    let rhs := u_m * u_nᵀ + u_n * u_mᵀ
    some (lhs * rhs)

/-- The local matrix `F_k` of `Hij<k>`: row `m` is `Fmn<m, k>(p_j)` for `m = 0, 1, 2`. -/
def F_k (f : BALMFeature K) (k : Fin 3) (p_j : Vector3 K) : Option (Matrix3 K) :=
  (Fmn f 0 k p_j).bind fun r0 =>
  (Fmn f 1 k p_j).bind fun r1 =>
  (Fmn f 2 k p_j).bind fun r2 =>
  some (Matrix.of fun i j => (![r0, r1, r2] i) 0 j)

/-- The member template `Hij<k>(p_i, p_j, i_equals_j)`.  In `t3` the inner product
`u_k.transpose() * (p_i - mean)` is a `1 × 1` expression and multiplies `U * F_k` as a scalar. -/
def Hij (f : BALMFeature K) (k : Fin 3) (p_i p_j : Vector3 K) (i_equals_j : Bool) :
    Option (Matrix3 K) :=
  let N : Int := f.num_points
  (F_k f k p_j).bind fun F =>
  let u_k := col3 f.eigenvectors k
  let U := f.eigenvectors
  if i_equals_j then
    (fdiv (((N - 1 : Int) : K)) (N : K)).bind fun c1 =>
    let t1 := c1 • u_k * u_kᵀ
    let t2 := u_k * (p_i - f.mean)ᵀ * U * F
    let t3 := ((u_kᵀ * (p_i - f.mean)) 0 0) • (U * F)
    (fdiv (2 : K) (N : K)).bind fun c =>
    some (c • (t1 + t2 + t3))
  else
    (fdiv (-1 : K) (N : K)).bind fun c1 =>
    let t1 := c1 • u_k * u_kᵀ
    let t2 := u_k * (p_i - f.mean)ᵀ * U * F
    let t3 := ((u_kᵀ * (p_i - f.mean)) 0 0) • (U * F)
    (fdiv (2 : K) (N : K)).bind fun c =>
    some (c • (t1 + t2 + t3))

/-- All divisors `num_points * (l_k - l_m)`, `m ≠ k`, met by `Hij<k>` through `Fmn<m, k>` are
non-zero. -/
def FkDefined (f : BALMFeature K) (k : Fin 3) : Prop :=
  ∀ m : Fin 3, m ≠ k → (f.num_points : K) * (f.eigenvalues k - f.eigenvalues m) ≠ 0

/-- The factor `1 / (num_points * (l_k - l_m))` of row `m` of `F_k`, and `0` for the row
`m = k`, which `Fmn<k, k>` sets to zero. -/
def FkWeight (f : BALMFeature K) (k m : Fin 3) : K :=
  if m = k then 0 else ((f.num_points : K) * (f.eigenvalues k - f.eigenvalues m))⁻¹

/-- The value of the matrix `F_k` for the displacement `b = p_j - mean`, when it has one. -/
def FkValue (f : BALMFeature K) (k : Fin 3) (b : Vector3 K) : Matrix3 K :=
  Matrix.of fun m c =>
    FkWeight f k m *
      ((bᵀ * (col3 f.eigenvectors m * (col3 f.eigenvectors k)ᵀ +
          col3 f.eigenvectors k * (col3 f.eigenvectors m)ᵀ)) 0 c)

/-- The value of `Hij<k>` with self-term coefficient `c1`, displacement `a = p_i - mean` and
matrix `F`, when it has one: `(2/N) (c1 u uᵀ + u aᵀ U F + (uᵀ a) U F)`. -/
def HijValue (f : BALMFeature K) (k : Fin 3) (c1 : K) (a : Vector3 K) (F : Matrix3 K) :
    Matrix3 K :=
  ((2 : K) / (f.num_points : K)) •
    (c1 • (col3 f.eigenvectors k * (col3 f.eigenvectors k)ᵀ)
      + col3 f.eigenvectors k * aᵀ * f.eigenvectors * F
      + (((col3 f.eigenvectors k)ᵀ * a) 0 0) • (f.eigenvectors * F))

end BALMFeature

/-- The quadratic form `uᵀ C u` of a matrix at a vector; for the `k`-th eigenvector this is the
`k`-th eigenvalue of `C`. -/
def quadForm (u : Vector3 K) (C : Matrix3 K) : K :=
  (uᵀ * C * u) 0 0

/-! Concrete clusters over the rationals, on which the definitions are evaluated. -/

/-- The point `(2, 0, 0)`. -/
def planeP0 : Vector3 ℚ := !![2; 0; 0]

/-- The point `(-2, 0, 0)`. -/
def planeP1 : Vector3 ℚ := !![-2; 0; 0]

/-- Four points in the plane `z = 0`, centred at the origin. -/
def planePoints : List (Vector3 ℚ) :=
  [planeP0, planeP1, !![0; 1; 0], !![0; -1; 0]]

/-- An eigen solver for the covariance `diag(2, 1/2, 0)` of `planePoints`: eigenvalues in
ascending order `0, 1/2, 2` with eigenvectors `e_z, e_y, e_x` as columns. -/
def planeEig : Matrix3 ℚ → (Fin 3 → ℚ) × Matrix3 ℚ :=
  fun _ => (![0, 1 / 2, 2], !![0, 0, 1; 0, 1, 0; 1, 0, 0])

/-- The feature the constructor builds from `planePoints`. -/
def planeFeature : BALMFeature ℚ :=
  { num_points := 4
    mean := 0
    cov := !![2, 0, 0; 0, 1 / 2, 0; 0, 0, 0]
    eigenvalues := ![0, 1 / 2, 2]
    eigenvectors := !![0, 0, 1; 0, 1, 0; 1, 0, 0] }

/-- Two points on the `x` axis; their covariance `diag(1, 0, 0)` has the eigenvalue `0` twice. -/
def linePoints : List (Vector3 ℚ) :=
  [!![1; 0; 0], !![-1; 0; 0]]

/-- An eigen solver for the covariance of `linePoints`: eigenvalues `0, 0, 1` with eigenvectors
`e_y, e_z, e_x` as columns. -/
def lineEig : Matrix3 ℚ → (Fin 3 → ℚ) × Matrix3 ℚ :=
  fun _ => (![0, 0, 1], !![0, 0, 1; 1, 0, 0; 0, 1, 0])

/-- The feature the constructor builds from `linePoints`. -/
def lineFeature : BALMFeature ℚ :=
  { num_points := 2
    mean := 0
    cov := !![1, 0, 0; 0, 0, 0; 0, 0, 0]
    eigenvalues := ![0, 0, 1]
    eigenvectors := !![0, 0, 1; 1, 0, 0; 0, 1, 0] }

end gtsam_ext

namespace gtsam_points

open Matrix

variable {K : Type} [LinearOrderedField K]

/-- Eigen `Vector4d`: a column vector with four rows (a homogeneous point). -/
abbrev Vector4 (K : Type) := Matrix (Fin 4) (Fin 1) K

/-- Eigen `Isometry3d`: a transform of 3D space, stored as a `4 × 4` matrix. -/
structure Isometry3 (K : Type) where
  matrix : Matrix (Fin 4) (Fin 4) K

/-- Eigen `T * v` for an `Isometry3d` and a homogeneous 4-vector: the first three rows are the
affine part of the transform (the first three rows of its matrix) times `v`, and the last row of
`v` is kept. -/
def Isometry3.apply (T : Isometry3 K) (v : Vector4 K) : Vector4 K :=
  Matrix.of fun i j => if i = 3 then v 3 j else (T.matrix * v) i j

/-- Eigen `v.squaredNorm()`: the sum of the squares of the coefficients. -/
def squaredNorm (v : Vector4 K) : K :=
  ∑ i : Fin 4, v i 0 * v i 0

namespace impl

/-- The two overloads of `impl::sum_diffs`: one `(target, source)` pair, or one pair followed by
the parameter pack `rest...`, which holds further pairs. -/
def sum_diffs (T_target_source : Isometry3 K) :
    Vector4 K → Vector4 K → List (Vector4 K × Vector4 K) → K
  | target, source, [] => squaredNorm (target - T_target_source.apply source)
  | target, source, (t, s) :: rest =>
    squaredNorm (target - T_target_source.apply source) + sum_diffs T_target_source t s rest

/-- The function `impl::sum_sq_errors(T_target_source, args...)`; the pack `args...` has an even
number of arguments and starts with a pair, as the overloads of `sum_diffs` require. -/
def sum_sq_errors (T_target_source : Isometry3 K) (target source : Vector4 K)
    (rest : List (Vector4 K × Vector4 K)) : K :=
  sum_diffs T_target_source target source rest

end impl

/-- The translation by `(1, 0, 0)`. -/
def shiftX : Isometry3 ℚ :=
  { matrix := !![1, 0, 0, 1; 0, 1, 0, 0; 0, 0, 1, 0; 0, 0, 0, 1] }

/-- The homogeneous point `(1, 2, 3, 1)`. -/
def pointA : Vector4 ℚ := !![1; 2; 3; 1]

end gtsam_points

namespace gtsam_ext

open Matrix BALMFeature

variable {K : Type} [LinearOrderedField K]

theorem fdiv_of_ne (a : K) {b : K} (hb : b ≠ 0) : fdiv a b = some (a / b) := by
  simp [fdiv, hb]

theorem mdiv_of_ne {m n : Type} (M : Matrix m n K) {b : K} (hb : b ≠ 0) :
    mdiv M b = some (Matrix.of fun i j => M i j / b) := by
  simp [mdiv, hb]

theorem cast_num_points_ne {N : Int} (hN : 1 ≤ N) : (N : K) ≠ 0 := by
  have : (0 : Int) < N := by omega
  exact_mod_cast this.ne'

/-- C2. With `num_points = N ≥ 1`, `Ji<k>(p_i)` is the row vector
`(2/N) * (p_i - mean)ᵀ * u_k * u_kᵀ`, which is `(2/N) * ((p_i - mean) · u_k) * u_kᵀ`. -/
theorem Ji_closed_form (f : BALMFeature K) (k : Fin 3) (p_i : Vector3 K)
    (hN : 1 ≤ f.num_points) :
    Ji f k p_i
        = some (((2 : K) / (f.num_points : K)) •
            ((p_i - f.mean)ᵀ * col3 f.eigenvectors k * (col3 f.eigenvectors k)ᵀ))
      ∧ Ji f k p_i
        = some ((((2 : K) / (f.num_points : K)) *
            (∑ r : Fin 3, (p_i - f.mean) r 0 * f.eigenvectors r k)) •
              (col3 f.eigenvectors k)ᵀ) := by
  have h0 : (f.num_points : K) ≠ 0 := cast_num_points_ne hN
  constructor
  · simp [Ji, fdiv_of_ne _ h0, Matrix.smul_mul]
  · simp only [Ji, fdiv_of_ne _ h0, Option.some_bind, Option.some.injEq]
    ext i j
    obtain rfl : i = 0 := Subsingleton.elim _ _
    simp only [Matrix.smul_apply, Matrix.mul_apply, Matrix.transpose_apply, Matrix.sub_apply,
      col3, Matrix.of_apply, Fin.sum_univ_three, Finset.univ_unique, Fin.default_eq_zero,
      Finset.sum_singleton, smul_eq_mul]
    ring

/-- C2, at a concrete input: the feature of `planePoints`, `k = 2`, `p_i = (2, 0, 0)`. -/
theorem Ji_closed_form_witness :
    1 ≤ planeFeature.num_points
      ∧ Ji planeFeature 2 planeP0
        = some (((2 : ℚ) / (planeFeature.num_points : ℚ)) •
            ((planeP0 - planeFeature.mean)ᵀ * col3 planeFeature.eigenvectors 2
              * (col3 planeFeature.eigenvectors 2)ᵀ)) :=
  ⟨by decide, (Ji_closed_form planeFeature 2 planeP0 (by decide)).1⟩

/-- The three outcomes of `Fmn<m, n>`, by the branch taken and the divisor met. -/
theorem Fmn_unfold (f : BALMFeature K) (m n : Fin 3) (pt : Vector3 K) :
    Fmn f m n pt =
      if m = n then some 0
      else if (f.num_points : K) * (f.eigenvalues n - f.eigenvalues m) = 0 then none
      else some ((Matrix.of fun i j =>
          (pt - f.mean)ᵀ i j / ((f.num_points : K) * (f.eigenvalues n - f.eigenvalues m))) *
        (col3 f.eigenvectors m * (col3 f.eigenvectors n)ᵀ +
          col3 f.eigenvectors n * (col3 f.eigenvectors m)ᵀ)) := by
  unfold Fmn mdiv
  by_cases hmn : m = n
  · simp [hmn]
  · by_cases hD : (f.num_points : K) * (f.eigenvalues n - f.eigenvalues m) = 0
    · simp [hmn, hD]
    · simp [hmn, hD]

/-- C3. `Fmn<m, n>(pt)` is the zero row vector when `m = n`; when `m ≠ n` it is
`(pt - mean)ᵀ / (N (λₙ - λₘ)) * (uₘ uₙᵀ + uₙ uₘᵀ)` whenever that quotient exists, and has no value
exactly when the divisor `N (λₙ - λₘ)` is zero. -/
theorem Fmn_closed_form (f : BALMFeature K) (m n : Fin 3) (pt : Vector3 K) :
    (m = n → Fmn f m n pt = some 0)
      ∧ (m ≠ n → (f.num_points : K) * (f.eigenvalues n - f.eigenvalues m) ≠ 0 →
          Fmn f m n pt
            = some ((((f.num_points : K) * (f.eigenvalues n - f.eigenvalues m))⁻¹ •
                (pt - f.mean)ᵀ) *
              (col3 f.eigenvectors m * (col3 f.eigenvectors n)ᵀ +
                col3 f.eigenvectors n * (col3 f.eigenvectors m)ᵀ)))
      ∧ (m ≠ n → (f.num_points : K) * (f.eigenvalues n - f.eigenvalues m) = 0 →
          Fmn f m n pt = none) := by
  refine ⟨fun h => ?_, fun h hD => ?_, fun h hD => ?_⟩
  · simp [Fmn_unfold, h]
  · rw [Fmn_unfold, if_neg h, if_neg hD]
    congr 2
    ext i j
    simp [div_eq_inv_mul]
  · simp [Fmn_unfold, h, hD]

/-- C3, at concrete inputs: `Fmn<1, 1>` and `Fmn<2, 0>` of the feature of `planePoints`, whose
divisor `4 (0 - 2)` is non-zero. -/
theorem Fmn_closed_form_witness :
    ((1 : Fin 3) = 1 ∧ Fmn planeFeature 1 1 planeP0 = some 0)
      ∧ ((2 : Fin 3) ≠ 0
        ∧ (planeFeature.num_points : ℚ)
            * (planeFeature.eigenvalues 0 - planeFeature.eigenvalues 2) ≠ 0
        ∧ Fmn planeFeature 2 0 planeP0
            = some ((((planeFeature.num_points : ℚ)
                  * (planeFeature.eigenvalues 0 - planeFeature.eigenvalues 2))⁻¹ •
                (planeP0 - planeFeature.mean)ᵀ) *
              (col3 planeFeature.eigenvectors 2 * (col3 planeFeature.eigenvectors 0)ᵀ +
                col3 planeFeature.eigenvectors 0 * (col3 planeFeature.eigenvectors 2)ᵀ))) :=
  ⟨⟨rfl, (Fmn_closed_form planeFeature 1 1 planeP0).1 rfl⟩,
    by decide, by simp [planeFeature],
    (Fmn_closed_form planeFeature 2 0 planeP0).2.1 (by decide) (by simp [planeFeature])⟩

theorem num_points_ne_of_FkDefined {f : BALMFeature K} {k : Fin 3} (h : FkDefined f k) :
    (f.num_points : K) ≠ 0 := by
  have h1 : ∃ m : Fin 3, m ≠ k := by
    fin_cases k
    · exact ⟨1, by decide⟩
    · exact ⟨0, by decide⟩
    · exact ⟨0, by decide⟩
  obtain ⟨m, hm⟩ := h1
  exact left_ne_zero_of_mul (h m hm)

theorem Fmn_eq_some {f : BALMFeature K} {k : Fin 3} (h : FkDefined f k) (m : Fin 3)
    (p : Vector3 K) :
    Fmn f m k p = some (Matrix.of fun _ c => FkValue f k (p - f.mean) m c) := by
  by_cases hm : m = k
  · rw [Fmn_unfold, if_pos hm]
    congr 1
    ext i c
    simp [FkValue, FkWeight, hm]
  · rw [Fmn_unfold, if_neg hm, if_neg (h m hm)]
    congr 1
    ext i c
    obtain rfl : i = 0 := Subsingleton.elim _ _
    simp only [FkValue, FkWeight, if_neg hm, Matrix.of_apply, Matrix.mul_apply, Finset.mul_sum]
    refine Finset.sum_congr rfl fun t _ => ?_
    rw [div_eq_inv_mul, mul_assoc]

theorem F_k_eq_some {f : BALMFeature K} {k : Fin 3} (h : FkDefined f k) (p : Vector3 K) :
    F_k f k p = some (FkValue f k (p - f.mean)) := by
  simp only [F_k, Fmn_eq_some h, Option.some_bind, Option.some.injEq]
  ext i c
  fin_cases i <;> simp

theorem F_k_eq_none {f : BALMFeature K} {k : Fin 3} (h : ¬ FkDefined f k) (p : Vector3 K) :
    F_k f k p = none := by
  unfold FkDefined at h
  push_neg at h
  obtain ⟨m, hm, hD⟩ := h
  have hnone : Fmn f m k p = none := by simp [Fmn_unfold, hm, hD]
  unfold F_k
  fin_cases m
  · simp only [Fin.zero_eta] at hnone
    simp [hnone]
  · simp only [Fin.mk_one] at hnone
    cases Fmn f 0 k p <;> simp [hnone]
  · have hnone2 : Fmn f 2 k p = none := hnone
    cases Fmn f 0 k p <;> cases Fmn f 1 k p <;> simp [hnone2]

theorem Hij_eq_some {f : BALMFeature K} {k : Fin 3} (h : FkDefined f k) (p_i p_j : Vector3 K)
    (b : Bool) :
    Hij f k p_i p_j b
      = some (HijValue f k
          (if b then ((f.num_points - 1 : Int) : K) / (f.num_points : K)
            else (-1 : K) / (f.num_points : K))
          (p_i - f.mean) (FkValue f k (p_j - f.mean))) := by
  have h0 := num_points_ne_of_FkDefined h
  cases b <;>
    simp [Hij, F_k_eq_some h, fdiv_of_ne _ h0, HijValue, Matrix.smul_mul]

theorem Hij_eq_none {f : BALMFeature K} {k : Fin 3} (h : ¬ FkDefined f k) (p_i p_j : Vector3 K)
    (b : Bool) : Hij f k p_i p_j b = none := by
  simp [Hij, F_k_eq_none h]

/-! ### The constructor -/

theorem foldl_accumulate (l : List (Vector3 K)) (s : Vector3 K) (c : Matrix3 K) :
    l.foldl (fun (s : Vector3 K × Matrix3 K) pt => (s.1 + pt, s.2 + pt * ptᵀ)) (s, c)
      = (s + l.sum, c + (l.map fun pt => pt * ptᵀ).sum) := by
  induction l generalizing s c with
  | nil => simp
  | cons x xs ih => simp [ih, add_assoc]

theorem accumulate_eq (l : List (Vector3 K)) :
    accumulate l = (l.sum, (l.map fun pt => pt * ptᵀ).sum) := by
  rw [accumulate, foldl_accumulate, zero_add, zero_add]

theorem length_cast_ne {α : Type} {l : List α} (h : l ≠ []) : ((l.length : K)) ≠ 0 := by
  have : l.length ≠ 0 := fun h0 => h (List.length_eq_zero.mp h0)
  exact_mod_cast this

theorem build_eq_some (eig : Matrix3 K → (Fin 3 → K) × Matrix3 K) (points : List (Vector3 K))
    (h : points ≠ []) :
    build eig points
      = some
          { num_points := (points.length : Int)
            mean := Matrix.of fun i j => points.sum i j / (points.length : K)
            cov := Matrix.of fun i j =>
              ((points.map fun pt => pt * ptᵀ).sum
                - (Matrix.of fun i j => points.sum i j / (points.length : K)) * points.sumᵀ) i j
                / (points.length : K)
            eigenvalues := (eig (Matrix.of fun i j =>
              ((points.map fun pt => pt * ptᵀ).sum
                - (Matrix.of fun i j => points.sum i j / (points.length : K)) * points.sumᵀ) i j
                / (points.length : K))).1
            eigenvectors := (eig (Matrix.of fun i j =>
              ((points.map fun pt => pt * ptᵀ).sum
                - (Matrix.of fun i j => points.sum i j / (points.length : K)) * points.sumᵀ) i j
                / (points.length : K))).2 } := by
  simp [build, accumulate_eq, mdiv_of_ne _ (length_cast_ne h)]

theorem sum_map_centered (points : List (Vector3 K)) (mu : Vector3 K) :
    (points.map fun p => (p - mu) * (p - mu)ᵀ).sum
      = (points.map fun p => p * pᵀ).sum - mu * points.sumᵀ - points.sum * muᵀ
        + (points.length : K) • (mu * muᵀ) := by
  induction points with
  | nil => simp
  | cons x xs ih =>
    rw [List.map_cons, List.sum_cons, ih, List.sum_cons, List.map_cons, List.sum_cons]
    simp only [List.length_cons, Nat.cast_succ, add_smul,
      one_smul, Matrix.transpose_add, Matrix.transpose_sub, Matrix.mul_add, Matrix.add_mul,
      Matrix.sub_mul, Matrix.mul_sub]
    abel

/-- C4. For a non-empty list of points the constructor returns a feature with
`num_points = N`, `mean = (1/N) Σ pᵢ` and `cov = (1/N) Σ pᵢ pᵢᵀ - mean meanᵀ`, which is the
population covariance `(1/N) Σ (pᵢ - mean)(pᵢ - mean)ᵀ`. -/
theorem build_mean_cov (eig : Matrix3 K → (Fin 3 → K) × Matrix3 K)
    (points : List (Vector3 K)) (h : points ≠ []) :
    ∃ f : BALMFeature K, build eig points = some f
      ∧ f.num_points = (points.length : Int)
      ∧ f.mean = ((1 : K) / (points.length : K)) • points.sum
      ∧ f.cov = ((1 : K) / (points.length : K)) • (points.map fun p => p * pᵀ).sum
          - f.mean * f.meanᵀ
      ∧ f.cov = ((1 : K) / (points.length : K)) •
          (points.map fun p => (p - f.mean) * (p - f.mean)ᵀ).sum := by
  have hN : ((points.length : K)) ≠ 0 := length_cast_ne h
  have hmean : (Matrix.of fun i j => points.sum i j / (points.length : K))
      = ((1 : K) / (points.length : K)) • points.sum := by
    ext i j
    simp [div_eq_inv_mul]
  have hcov : (Matrix.of fun i j =>
      ((points.map fun pt => pt * ptᵀ).sum
        - (((1 : K) / (points.length : K)) • points.sum) * points.sumᵀ) i j
        / (points.length : K))
      = ((1 : K) / (points.length : K)) • (points.map fun p => p * pᵀ).sum
        - (((1 : K) / (points.length : K)) • points.sum)
          * (((1 : K) / (points.length : K)) • points.sum)ᵀ := by
    ext i j
    simp only [Matrix.of_apply, Matrix.sub_apply, Matrix.smul_apply, Matrix.mul_apply,
      Matrix.transpose_apply, smul_eq_mul, Finset.univ_unique, Finset.sum_singleton]
    field_simp
    ring
  refine ⟨_, build_eq_some eig points h, rfl, hmean, ?_, ?_⟩
  · simp only [hmean]
    exact hcov
  · simp only [hmean]
    rw [hcov, sum_map_centered]
    ext i j
    simp only [Matrix.of_apply, Matrix.sub_apply, Matrix.add_apply, Matrix.smul_apply,
      Matrix.mul_apply, Matrix.transpose_apply, smul_eq_mul, Finset.univ_unique,
      Finset.sum_singleton]
    field_simp
    ring

/-- C4, at a concrete input: the constructor on the four points of `planePoints`. -/
theorem build_mean_cov_witness :
    planePoints ≠ [] ∧
    ∃ f : BALMFeature ℚ, build planeEig planePoints = some f
      ∧ f.num_points = (planePoints.length : Int)
      ∧ f.mean = ((1 : ℚ) / (planePoints.length : ℚ)) • planePoints.sum
      ∧ f.cov = ((1 : ℚ) / (planePoints.length : ℚ)) • (planePoints.map fun p => p * pᵀ).sum
          - f.mean * f.meanᵀ
      ∧ f.cov = ((1 : ℚ) / (planePoints.length : ℚ)) •
          (planePoints.map fun p => (p - f.mean) * (p - f.mean)ᵀ).sum :=
  ⟨by simp [planePoints], build_mean_cov planeEig planePoints (by simp [planePoints])⟩

theorem build_singleton (eig : Matrix3 K → (Fin 3 → K) × Matrix3 K) (p : Vector3 K) :
    ∃ f : BALMFeature K,
      build eig [p] = some f ∧ f.num_points = 1 ∧ f.mean = p ∧ f.cov = 0 := by
  refine ⟨_, build_eq_some eig [p] (by simp), by simp, ?_, ?_⟩
  · ext i j
    simp
  · ext i j
    simp [Matrix.mul_apply]

/-- C6 fails for a single point: the constructor's covariance of the one-point cluster
`(1, 2, 3)` is a defined matrix, the zero matrix. -/
theorem build_single_point_counterexample :
    ([!![1; 2; 3]] : List (Vector3 ℚ)).length < 2
      ∧ ∃ f : BALMFeature ℚ, build planeEig [!![1; 2; 3]] = some f ∧ f.cov = 0 := by
  obtain ⟨f, hf, _, _, hcov⟩ := build_singleton planeEig !![1; 2; 3]
  exact ⟨by simp, f, hf, hcov⟩

/-- C6, amended. The constructor has no value on the empty list (its divisions are by zero);
on a single point `p` it returns a feature with `num_points = 1`, `mean = p` and the zero matrix
as covariance. -/
theorem build_fewer_than_two_points (eig : Matrix3 K → (Fin 3 → K) × Matrix3 K) :
    build eig [] = none
      ∧ ∀ p : Vector3 K, ∃ f : BALMFeature K,
          build eig [p] = some f ∧ f.num_points = 1 ∧ f.mean = p ∧ f.cov = 0 :=
  ⟨by simp [build, mdiv], build_singleton eig⟩

/-! ### Symmetry of the Hessian blocks -/

theorem HijValue_transpose (f : BALMFeature K) (k : Fin 3) (c1 : K) (a b : Vector3 K) :
    (HijValue f k c1 a (FkValue f k b))ᵀ = HijValue f k c1 b (FkValue f k a) := by
  ext i j
  simp only [HijValue, FkValue, col3, Matrix.transpose_apply, Matrix.smul_apply,
    Matrix.add_apply, Matrix.mul_apply, Matrix.of_apply, Fin.sum_univ_three,
    Finset.univ_unique, Fin.default_eq_zero, Finset.sum_singleton, smul_eq_mul]
  ring

/-- C10. With `num_points ≥ 1`, the blocks `Hij<k>` assemble to a symmetric matrix: the
transpose of `Hij<k>(p_i, p_j, false)` is `Hij<k>(p_j, p_i, false)`, and `Hij<k>(p, p, true)` is
its own transpose; when the eigenvalues are pairwise distinct these blocks have values. -/
theorem Hij_symmetric (f : BALMFeature K) (k : Fin 3) (p_i p_j : Vector3 K)
    (hN : 1 ≤ f.num_points) :
    (Hij f k p_i p_j false).map Matrix.transpose = Hij f k p_j p_i false
      ∧ (Hij f k p_i p_i true).map Matrix.transpose = Hij f k p_i p_i true
      ∧ ((∀ m n, m ≠ n → f.eigenvalues m ≠ f.eigenvalues n) →
          ∃ A B C : Matrix3 K, Hij f k p_i p_j false = some A ∧ Hij f k p_j p_i false = some B
            ∧ Hij f k p_i p_i true = some C ∧ Aᵀ = B ∧ Cᵀ = C) := by
  by_cases h : FkDefined f k
  · refine ⟨?_, ?_, fun _ => ⟨_, _, _, Hij_eq_some h _ _ _, Hij_eq_some h _ _ _,
      Hij_eq_some h _ _ _, ?_, ?_⟩⟩
    · simp only [Hij_eq_some h, Option.map_some', HijValue_transpose]
    · simp only [Hij_eq_some h, Option.map_some', HijValue_transpose]
    · exact HijValue_transpose f k _ _ _
    · exact HijValue_transpose f k _ _ _
  · refine ⟨by simp [Hij_eq_none h], by simp [Hij_eq_none h], fun hd => absurd ?_ h⟩
    intro m hm
    exact mul_ne_zero (cast_num_points_ne hN) (sub_ne_zero.mpr (hd k m (Ne.symm hm)))

/-! ### Facts about the concrete clusters -/

theorem planeFeature_guard :
    1 ≤ planeFeature.num_points
      ∧ ∀ m n : Fin 3, m ≠ n → planeFeature.eigenvalues m ≠ planeFeature.eigenvalues n := by
  refine ⟨by simp [planeFeature], fun m n => ?_⟩
  fin_cases m <;> fin_cases n <;> simp [planeFeature] <;> norm_num

theorem planeFeature_defined (k : Fin 3) : FkDefined planeFeature k := by
  intro m hm
  exact mul_ne_zero (cast_num_points_ne planeFeature_guard.1)
    (sub_ne_zero.mpr (planeFeature_guard.2 k m (Ne.symm hm)))

theorem accumulate_planePoints :
    accumulate planePoints = (0, !![8, 0, 0; 0, 2, 0; 0, 0, 0]) := by
  simp only [accumulate, planePoints, planeP0, planeP1, List.foldl]
  refine Prod.ext ?_ ?_
  · ext i j; fin_cases i <;> fin_cases j <;> simp
  · ext i j; fin_cases i <;> fin_cases j <;>
      simp [Matrix.mul_apply, Fin.sum_univ_succ, Matrix.vecHead, Matrix.vecTail] <;> norm_num

theorem build_planePoints : build planeEig planePoints = some planeFeature := by
  have hl : ((planePoints.length : ℚ)) = 4 := by simp [planePoints]
  have hne : (4 : ℚ) ≠ 0 := by norm_num
  simp only [build, accumulate_planePoints, hl, mdiv_of_ne _ hne, Option.some_bind,
    Option.some.injEq]
  simp only [planeFeature, planeEig, BALMFeature.mk.injEq]
  refine ⟨by simp [planePoints], ?_, ?_, trivial, trivial⟩
  · ext i j; simp
  · ext i j; fin_cases i <;> fin_cases j <;>
      simp [Matrix.mul_apply, Matrix.vecHead, Matrix.vecTail] <;> norm_num

theorem planeFeature_eigen :
    planeFeature.cov * planeFeature.eigenvectors
        = planeFeature.eigenvectors * Matrix.diagonal planeFeature.eigenvalues
      ∧ planeFeature.eigenvectorsᵀ * planeFeature.eigenvectors = 1
      ∧ planeFeature.eigenvalues 0 ≤ planeFeature.eigenvalues 1
      ∧ planeFeature.eigenvalues 1 ≤ planeFeature.eigenvalues 2 := by
  refine ⟨?_, ?_, ?_, ?_⟩
  · ext i j
    fin_cases i <;> fin_cases j <;>
      simp [planeFeature, Matrix.mul_apply, Fin.sum_univ_three, Matrix.diagonal,
        Matrix.vecHead, Matrix.vecTail]
  · ext i j
    fin_cases i <;> fin_cases j <;>
      simp [planeFeature, Matrix.mul_apply, Fin.sum_univ_three, Matrix.vecHead, Matrix.vecTail]
  · simp [planeFeature]
  · simp [planeFeature]
    norm_num

theorem accumulate_linePoints :
    accumulate linePoints = (0, !![2, 0, 0; 0, 0, 0; 0, 0, 0]) := by
  simp only [accumulate, linePoints, List.foldl]
  refine Prod.ext ?_ ?_
  · ext i j; fin_cases i <;> fin_cases j <;> simp [Matrix.vecHead, Matrix.vecTail]
  · ext i j
    fin_cases i <;> fin_cases j <;>
      simp [Matrix.mul_apply, Fin.sum_univ_succ, Matrix.vecHead, Matrix.vecTail]
    all_goals norm_num

theorem build_linePoints : build lineEig linePoints = some lineFeature := by
  have hl : ((linePoints.length : ℚ)) = 2 := by simp [linePoints]
  have hne : (2 : ℚ) ≠ 0 := by norm_num
  simp only [build, accumulate_linePoints, hl, mdiv_of_ne _ hne, Option.some_bind,
    Option.some.injEq]
  simp only [lineFeature, lineEig, BALMFeature.mk.injEq]
  refine ⟨by simp [linePoints], ?_, ?_, trivial, trivial⟩
  · ext i j; simp
  · ext i j; fin_cases i <;> fin_cases j <;>
      simp [Matrix.mul_apply, Matrix.vecHead, Matrix.vecTail]

theorem lineFeature_eigen :
    lineFeature.cov * lineFeature.eigenvectors
        = lineFeature.eigenvectors * Matrix.diagonal lineFeature.eigenvalues
      ∧ lineFeature.eigenvectorsᵀ * lineFeature.eigenvectors = 1 := by
  refine ⟨?_, ?_⟩
  · ext i j
    fin_cases i <;> fin_cases j <;>
      simp [lineFeature, Matrix.mul_apply, Fin.sum_univ_three, Matrix.diagonal,
        Matrix.vecHead, Matrix.vecTail]
  · ext i j
    fin_cases i <;> fin_cases j <;>
      simp [lineFeature, Matrix.mul_apply, Fin.sum_univ_three, Matrix.vecHead, Matrix.vecTail]

/-! ### The two closed forms of `Hij` -/

theorem F_k_rows {f : BALMFeature K} {k : Fin 3} {p_j : Vector3 K} {F : Matrix3 K}
    (hF : F_k f k p_j = some F) (m : Fin 3) :
    Fmn f m k p_j = some (Matrix.of fun _ c => F m c) := by
  unfold F_k at hF
  rcases h0 : Fmn f 0 k p_j with _ | r0
  · simp [h0] at hF
  rcases h1 : Fmn f 1 k p_j with _ | r1
  · simp [h0, h1] at hF
  rcases h2 : Fmn f 2 k p_j with _ | r2
  · simp [h0, h1, h2] at hF
  simp only [h0, h1, h2, Option.some_bind, Option.some.injEq] at hF
  subst hF
  fin_cases m
  · simp only [Fin.zero_eta, h0]
    congr 1
    ext i c
    obtain rfl : i = 0 := Subsingleton.elim _ _
    simp
  · simp only [Fin.mk_one, h1]
    congr 1
    ext i c
    obtain rfl : i = 0 := Subsingleton.elim _ _
    simp
  · show Fmn f 2 k p_j = _
    rw [h2]
    congr 1
    ext i c
    obtain rfl : i = 0 := Subsingleton.elim _ _
    simp

/-- C1, amended. With `num_points = N ≥ 1` and `F` the matrix whose row `m` is `Fmn<m, k>(p_j)`,
`Hij<k>(p_i, p_j, true) = (2/N) (((N-1)/N) u uᵀ + t2 + t3)` and
`Hij<k>(p_i, p_j, false) = (2/N) ((-1/N) u uᵀ + t2 + t3)` with `t2 = u (p_i - mean)ᵀ U F` and
`t3 = (uᵀ (p_i - mean)) U F`; the two differ by `(2/N) u uᵀ`. -/
theorem Hij_closed_forms (f : BALMFeature K) (k : Fin 3) (p_i p_j : Vector3 K)
    (hN : 1 ≤ f.num_points) :
    (∀ F, F_k f k p_j = some F → ∀ m, Fmn f m k p_j = some (Matrix.of fun _ c => F m c))
      ∧ Hij f k p_i p_j true
          = (F_k f k p_j).map (fun F =>
              ((2 : K) / (f.num_points : K)) •
                ((((f.num_points : K) - 1) / (f.num_points : K)) •
                    (col3 f.eigenvectors k * (col3 f.eigenvectors k)ᵀ)
                  + col3 f.eigenvectors k * (p_i - f.mean)ᵀ * f.eigenvectors * F
                  + (((col3 f.eigenvectors k)ᵀ * (p_i - f.mean)) 0 0) • (f.eigenvectors * F)))
      ∧ Hij f k p_i p_j false
          = (F_k f k p_j).map (fun F =>
              ((2 : K) / (f.num_points : K)) •
                (((-1 : K) / (f.num_points : K)) •
                    (col3 f.eigenvectors k * (col3 f.eigenvectors k)ᵀ)
                  + col3 f.eigenvectors k * (p_i - f.mean)ᵀ * f.eigenvectors * F
                  + (((col3 f.eigenvectors k)ᵀ * (p_i - f.mean)) 0 0) • (f.eigenvectors * F)))
      ∧ ∀ Ht Hf, Hij f k p_i p_j true = some Ht → Hij f k p_i p_j false = some Hf →
          Ht - Hf = ((2 : K) / (f.num_points : K)) •
            (col3 f.eigenvectors k * (col3 f.eigenvectors k)ᵀ) := by
  have h0 : (f.num_points : K) ≠ 0 := cast_num_points_ne hN
  have ht : Hij f k p_i p_j true
      = (F_k f k p_j).map (fun F =>
          ((2 : K) / (f.num_points : K)) •
            ((((f.num_points : K) - 1) / (f.num_points : K)) •
                (col3 f.eigenvectors k * (col3 f.eigenvectors k)ᵀ)
              + col3 f.eigenvectors k * (p_i - f.mean)ᵀ * f.eigenvectors * F
              + (((col3 f.eigenvectors k)ᵀ * (p_i - f.mean)) 0 0) • (f.eigenvectors * F))) := by
    rcases hF : F_k f k p_j with _ | F
    · simp [Hij, hF]
    · simp [Hij, hF, fdiv_of_ne _ h0, Matrix.smul_mul]
  have hf : Hij f k p_i p_j false
      = (F_k f k p_j).map (fun F =>
          ((2 : K) / (f.num_points : K)) •
            (((-1 : K) / (f.num_points : K)) •
                (col3 f.eigenvectors k * (col3 f.eigenvectors k)ᵀ)
              + col3 f.eigenvectors k * (p_i - f.mean)ᵀ * f.eigenvectors * F
              + (((col3 f.eigenvectors k)ᵀ * (p_i - f.mean)) 0 0) • (f.eigenvectors * F))) := by
    rcases hF : F_k f k p_j with _ | F
    · simp [Hij, hF]
    · simp [Hij, hF, fdiv_of_ne _ h0, Matrix.smul_mul]
  refine ⟨fun F hF m => F_k_rows hF m, ht, hf, fun Ht Hf hHt hHf => ?_⟩
  rw [ht] at hHt
  rw [hf] at hHf
  rcases hF : F_k f k p_j with _ | F
  · simp [hF] at hHt
  · simp only [hF, Option.map_some', Option.some.injEq] at hHt hHf
    subst hHt
    subst hHf
    ext i j
    simp only [Matrix.sub_apply, Matrix.smul_apply, Matrix.add_apply, smul_eq_mul]
    field_simp
    ring

/-- C1, amended, at a concrete input: the feature of `planePoints`, `k = 0`. -/
theorem Hij_closed_forms_witness :
    1 ≤ planeFeature.num_points
      ∧ ∀ Ht Hf, Hij planeFeature 0 planeP0 planeP1 true = some Ht →
          Hij planeFeature 0 planeP0 planeP1 false = some Hf →
          Ht - Hf = ((2 : ℚ) / (planeFeature.num_points : ℚ)) •
            (col3 planeFeature.eigenvectors 0 * (col3 planeFeature.eigenvectors 0)ᵀ) :=
  ⟨planeFeature_guard.1,
    (Hij_closed_forms planeFeature 0 planeP0 planeP1 planeFeature_guard.1).2.2.2⟩

/-- C1 fails as stated: for the feature built from the four points of `planePoints`, `k = 0`,
`p_i = (2, 0, 0)` and `p_j = (-2, 0, 0)`, the block `Hij<0>(p_i, p_j, false)` has the entry `1/8`
at position `(2, 2)` where `(2/N) (t2 + t3)` has `1/4`, and the two closed forms differ at that
entry by `1/2`, not by `(2/N) ((N-1)/N) = 3/8`. -/
theorem Hij_false_self_term_counterexample :
    build planeEig planePoints = some planeFeature
      ∧ ∃ F Ht Hf : Matrix3 ℚ,
          F_k planeFeature 0 planeP1 = some F
            ∧ Hij planeFeature 0 planeP0 planeP1 true = some Ht
            ∧ Hij planeFeature 0 planeP0 planeP1 false = some Hf
            ∧ Hf 2 2 = 1 / 8
            ∧ (Ht - Hf) 2 2 = 1 / 2
            ∧ Hf ≠ ((2 : ℚ) / (planeFeature.num_points : ℚ)) •
                (col3 planeFeature.eigenvectors 0 * (planeP0 - planeFeature.mean)ᵀ
                    * planeFeature.eigenvectors * F
                  + (((col3 planeFeature.eigenvectors 0)ᵀ
                      * (planeP0 - planeFeature.mean)) 0 0) •
                    (planeFeature.eigenvectors * F))
            ∧ Ht - Hf ≠ ((2 : ℚ) / (planeFeature.num_points : ℚ)) •
                ((((planeFeature.num_points : ℚ) - 1) / (planeFeature.num_points : ℚ)) •
                  (col3 planeFeature.eigenvectors 0 * (col3 planeFeature.eigenvectors 0)ᵀ)) := by
  refine ⟨build_planePoints, _, _, _, F_k_eq_some (planeFeature_defined 0) _,
    Hij_eq_some (planeFeature_defined 0) _ _ _, Hij_eq_some (planeFeature_defined 0) _ _ _,
    ?_, ?_, fun h => ?_, fun h => ?_⟩
  · simp [HijValue, FkValue, FkWeight, planeFeature, planeP0, planeP1, col3, Matrix.mul_apply,
      Fin.sum_univ_three, Matrix.vecHead, Matrix.vecTail]
    norm_num
  · simp [HijValue, FkValue, FkWeight, planeFeature, planeP0, planeP1, col3, Matrix.mul_apply,
      Fin.sum_univ_three, Matrix.vecHead, Matrix.vecTail]
    norm_num
  · have h22 := congrFun (congrFun h 2) 2
    simp [HijValue, FkValue, FkWeight, planeFeature, planeP0, planeP1, col3, Matrix.mul_apply,
      Fin.sum_univ_three, Matrix.vecHead, Matrix.vecTail] at h22
    norm_num at h22
  · have h22 := congrFun (congrFun h 2) 2
    simp [HijValue, FkValue, FkWeight, planeFeature, planeP0, planeP1, col3, Matrix.mul_apply,
      Fin.sum_univ_three, Matrix.vecHead, Matrix.vecTail] at h22
    norm_num at h22

/-- C10, at a concrete input: the feature of `planePoints`, whose eigenvalues `0, 1/2, 2` are
pairwise distinct. -/
theorem Hij_symmetric_witness :
    (1 ≤ planeFeature.num_points
        ∧ ∀ m n : Fin 3, m ≠ n → planeFeature.eigenvalues m ≠ planeFeature.eigenvalues n)
      ∧ ∃ A B C : Matrix3 ℚ, Hij planeFeature 0 planeP0 planeP1 false = some A
          ∧ Hij planeFeature 0 planeP1 planeP0 false = some B
          ∧ Hij planeFeature 0 planeP0 planeP0 true = some C ∧ Aᵀ = B ∧ Cᵀ = C :=
  ⟨planeFeature_guard,
    (Hij_symmetric planeFeature 0 planeP0 planeP1 planeFeature_guard.1).2.2 planeFeature_guard.2⟩

/-! ### Divisors -/

/-- C7. Under the guard `num_points ≥ 1` with pairwise distinct eigenvalues, the divisors `N`
and `N (λₙ - λₘ)`, `m ≠ n`, are non-zero and `Ji<k>`, `Fmn<m, n>` and `Hij<k>` have a value for
all indices, points and flags; conversely `Fmn<m, n>` with `m ≠ n` has no value (its divisor is
zero) whenever `λₘ = λₙ`. -/
theorem divisions_guarded (f : BALMFeature K) :
    (1 ≤ f.num_points → (∀ m n : Fin 3, m ≠ n → f.eigenvalues m ≠ f.eigenvalues n) →
        (f.num_points : K) ≠ 0
          ∧ (∀ m n : Fin 3, m ≠ n →
              (f.num_points : K) * (f.eigenvalues n - f.eigenvalues m) ≠ 0)
          ∧ ∀ (k m n : Fin 3) (p_i p_j : Vector3 K) (b : Bool),
              (Ji f k p_i).isSome ∧ (Fmn f m n p_i).isSome ∧ (Hij f k p_i p_j b).isSome)
      ∧ (∀ (m n : Fin 3) (pt : Vector3 K), m ≠ n → f.eigenvalues m = f.eigenvalues n →
          (f.num_points : K) * (f.eigenvalues n - f.eigenvalues m) = 0
            ∧ Fmn f m n pt = none) := by
  constructor
  · intro hN hd
    have h0 : (f.num_points : K) ≠ 0 := cast_num_points_ne hN
    have hD : ∀ m n : Fin 3, m ≠ n →
        (f.num_points : K) * (f.eigenvalues n - f.eigenvalues m) ≠ 0 :=
      fun m n hmn => mul_ne_zero h0 (sub_ne_zero.mpr (hd n m (Ne.symm hmn)))
    refine ⟨h0, hD, fun k m n p_i p_j b => ⟨?_, ?_, ?_⟩⟩
    · simp [Ji, fdiv_of_ne _ h0]
    · by_cases hmn : m = n
      · simp [Fmn_unfold, hmn]
      · simp [Fmn_unfold, hmn, hD m n hmn]
    · have hk : FkDefined f k := fun m hm => hD m k hm
      simp [Hij_eq_some hk]
  · intro m n pt hmn he
    have hD : (f.num_points : K) * (f.eigenvalues n - f.eigenvalues m) = 0 := by
      rw [he, sub_self, mul_zero]
    exact ⟨hD, by simp [Fmn_unfold, hmn, hD]⟩

theorem lineFeature_eigenvalues : lineFeature.eigenvalues 0 = lineFeature.eigenvalues 1 := by
  simp [lineFeature]

/-- C7, at concrete inputs: the guard holds for the feature of `planePoints`; the feature of
`linePoints` has `λ₀ = λ₁`. -/
theorem divisions_guarded_witness :
    ((1 ≤ planeFeature.num_points
        ∧ ∀ m n : Fin 3, m ≠ n → planeFeature.eigenvalues m ≠ planeFeature.eigenvalues n)
      ∧ (Ji planeFeature 0 planeP0).isSome ∧ (Fmn planeFeature 1 2 planeP0).isSome
      ∧ (Hij planeFeature 0 planeP0 planeP1 false).isSome)
    ∧ ((0 : Fin 3) ≠ 1 ∧ lineFeature.eigenvalues 0 = lineFeature.eigenvalues 1
      ∧ Fmn lineFeature 0 1 planeP0 = none) :=
  ⟨⟨planeFeature_guard,
      ((divisions_guarded planeFeature).1 planeFeature_guard.1 planeFeature_guard.2).2.2
        0 1 2 planeP0 planeP1 false⟩,
    by decide, lineFeature_eigenvalues,
    ((divisions_guarded lineFeature).2 0 1 planeP0 (by decide) lineFeature_eigenvalues).2⟩

/-! ### Translation invariance of the Hessian blocks -/

theorem FkValue_zero (f : BALMFeature K) (k : Fin 3) : FkValue f k 0 = 0 := by
  ext i j
  simp [FkValue]

theorem FkValue_add (f : BALMFeature K) (k : Fin 3) (b c : Vector3 K) :
    FkValue f k (b + c) = FkValue f k b + FkValue f k c := by
  ext i j
  simp only [FkValue, Matrix.of_apply, Matrix.add_apply, Matrix.transpose_add, Matrix.add_mul]
  ring

theorem FkValue_sum (f : BALMFeature K) (k : Fin 3) {ι : Type} (s : Finset ι)
    (b : ι → Vector3 K) :
    ∑ j ∈ s, FkValue f k (b j) = FkValue f k (∑ j ∈ s, b j) := by
  classical
  induction s using Finset.induction_on with
  | empty => simp [FkValue_zero]
  | insert hj ih => rw [Finset.sum_insert hj, Finset.sum_insert hj, ih, FkValue_add]

theorem HijValue_sum (f : BALMFeature K) (k : Fin 3) (a : Vector3 K) {ι : Type}
    (s : Finset ι) (c : ι → K) (F : ι → Matrix3 K) :
    ∑ j ∈ s, HijValue f k (c j) a (F j) = HijValue f k (∑ j ∈ s, c j) a (∑ j ∈ s, F j) := by
  simp only [HijValue, ← Finset.smul_sum, Finset.sum_add_distrib, ← Finset.sum_smul,
    ← Matrix.mul_sum]

theorem HijValue_zero (f : BALMFeature K) (k : Fin 3) (a : Vector3 K) :
    HijValue f k 0 a 0 = 0 := by
  simp [HijValue]

theorem sum_self_coefficients (n : Nat) (i : Fin n) :
    ∑ j : Fin n,
        (if decide (i = j) = true then (((n : Int) - 1 : Int) : K) / ((n : Int) : K)
          else (-1 : K) / ((n : Int) : K)) = 0 := by
  have hn : (n : K) ≠ 0 := by
    have : n ≠ 0 := fun h => by subst h; exact i.elim0
    exact_mod_cast this
  have hsplit : ∀ j : Fin n,
      (if decide (i = j) = true then (((n : Int) - 1 : Int) : K) / ((n : Int) : K)
        else (-1 : K) / ((n : Int) : K))
        = (-1 : K) / (n : K) + (if i = j then (1 : K) else 0) := by
    intro j
    by_cases hij : i = j
    · simp only [hij, decide_True, if_true]
      push_cast
      field_simp
      ring
    · simp [hij]
  simp only [hsplit, Finset.sum_add_distrib, Finset.sum_const, Finset.card_univ,
    Fintype.card_fin, Finset.sum_ite_eq, Finset.mem_univ, if_true, nsmul_eq_mul]
  field_simp

theorem sum_centered (points : List (Vector3 K)) (h : points ≠ []) :
    ∑ j : Fin points.length,
        (points.get j - Matrix.of fun r c => points.sum r c / (points.length : K)) = 0 := by
  have hN : ((points.length : K)) ≠ 0 := length_cast_ne h
  have hs : ∑ j : Fin points.length, points.get j = points.sum := by
    simp
  rw [Finset.sum_sub_distrib, hs]
  ext r c
  simp only [Finset.sum_const, Finset.card_univ, Fintype.card_fin, Matrix.sub_apply,
    Matrix.smul_apply, Matrix.of_apply, Matrix.zero_apply, nsmul_eq_mul]
  field_simp

/-- C9. For the feature built from the points `p_1 .. p_N`, with pairwise distinct eigenvalues,
every block `Hij<k>(p_i, p_j, i == j)` of row `i` has a value and the blocks of the row sum to
the zero matrix. -/
theorem Hij_row_sum_zero (eig : Matrix3 K → (Fin 3 → K) × Matrix3 K)
    (points : List (Vector3 K)) (f : BALMFeature K) (hb : build eig points = some f)
    (hd : ∀ m n : Fin 3, m ≠ n → f.eigenvalues m ≠ f.eigenvalues n)
    (k : Fin 3) (i : Fin points.length) :
    ∃ H : Fin points.length → Matrix3 K,
      (∀ j, Hij f k (points.get i) (points.get j) (decide (i = j)) = some (H j))
        ∧ ∑ j, H j = 0 := by
  have hne : points ≠ [] := by
    rintro rfl
    exact i.elim0
  have hnum : f.num_points = (points.length : Int) := by
    rw [build_eq_some eig points hne] at hb
    injection hb with hb
    rw [← hb]
  have hmean : f.mean = Matrix.of fun r c => points.sum r c / (points.length : K) := by
    rw [build_eq_some eig points hne] at hb
    injection hb with hb
    rw [← hb]
  have hN : (f.num_points : K) ≠ 0 := by
    rw [hnum]
    exact_mod_cast length_cast_ne (K := K) hne
  have hk : FkDefined f k :=
    fun m hm => mul_ne_zero hN (sub_ne_zero.mpr (hd k m (Ne.symm hm)))
  refine ⟨fun j => HijValue f k
      (if decide (i = j) = true then ((f.num_points - 1 : Int) : K) / (f.num_points : K)
        else (-1 : K) / (f.num_points : K))
      (points.get i - f.mean) (FkValue f k (points.get j - f.mean)),
    fun j => Hij_eq_some hk _ _ _, ?_⟩
  rw [HijValue_sum, FkValue_sum, hmean, sum_centered points hne, FkValue_zero, hnum,
    sum_self_coefficients, HijValue_zero]

/-- C9, at a concrete input: row `0` of the feature built from `planePoints`, `k = 0`. -/
theorem Hij_row_sum_zero_witness :
    (build planeEig planePoints = some planeFeature
        ∧ ∀ m n : Fin 3, m ≠ n → planeFeature.eigenvalues m ≠ planeFeature.eigenvalues n)
      ∧ ∃ H : Fin planePoints.length → Matrix3 ℚ,
          (∀ j, Hij planeFeature 0 (planePoints.get ⟨0, by decide⟩) (planePoints.get j)
              (decide ((⟨0, by decide⟩ : Fin planePoints.length) = j)) = some (H j))
            ∧ ∑ j, H j = 0 :=
  ⟨⟨build_planePoints, planeFeature_guard.2⟩,
    Hij_row_sum_zero planeEig planePoints planeFeature build_planePoints planeFeature_guard.2 0
      ⟨0, by decide⟩⟩

/-! ### Perturbing one point -/

set_option maxHeartbeats 1000000 in
theorem quadForm_perturb (N : K) (hN : N ≠ 0) (u p d S : Vector3 K) (C : Matrix3 K) :
    quadForm u (Matrix.of fun i j =>
        ((C + (-(p * pᵀ) + (p + d) * (p + d)ᵀ))
          - (Matrix.of fun i j => (S + d) i j / N) * (S + d)ᵀ) i j / N)
      - quadForm u (Matrix.of fun i j =>
          (C - (Matrix.of fun i j => S i j / N) * Sᵀ) i j / N)
      = (((2 / N) • (p - Matrix.of fun i j => S i j / N)ᵀ * u * uᵀ) * d) 0 0
        + ((N - 1) / N ^ 2) * ((uᵀ * d) 0 0) ^ 2 := by
  simp only [quadForm, Matrix.mul_apply, Matrix.transpose_apply, Matrix.of_apply,
    Matrix.sub_apply, Matrix.add_apply, Matrix.neg_apply, Matrix.smul_apply, smul_eq_mul,
    Fin.sum_univ_three, Finset.univ_unique, Fin.default_eq_zero, Finset.sum_singleton]
  field_simp
  ring

/-- C5. Let `f` be the feature built from `p_1 .. p_N`, `u_k` its `k`-th eigenvector and
`g(q) = u_kᵀ Cov(p_1 .. q .. p_N) u_k` with `q` in place of `p_i`, the covariance being the one
the constructor computes. Then `Ji<k>(p_i)` has a value and
`g(p_i + d) - g(p_i) = Ji<k>(p_i) d + ((N-1)/N²) (u_k · d)²`. -/
theorem Ji_perturbation (eig : Matrix3 K → (Fin 3 → K) × Matrix3 K)
    (points : List (Vector3 K)) (f : BALMFeature K) (hb : build eig points = some f)
    (k : Fin 3) (i : Fin points.length) (d : Vector3 K) :
    ∃ (f2 : BALMFeature K) (J : RowVector3 K),
      build eig (points.set i (points.get i + d)) = some f2
        ∧ Ji f k (points.get i) = some J
        ∧ quadForm (col3 f.eigenvectors k) f2.cov - quadForm (col3 f.eigenvectors k) f.cov
            = (J * d) 0 0
              + (((points.length : K) - 1) / (points.length : K) ^ 2)
                * (((col3 f.eigenvectors k)ᵀ * d) 0 0) ^ 2 := by
  have hne : points ≠ [] := by
    rintro rfl
    exact i.elim0
  have hne2 : points.set i (points.get i + d) ≠ [] := by
    intro h
    have := congrArg List.length h
    simp at this
    exact hne this
  have hN : ((points.length : K)) ≠ 0 := length_cast_ne hne
  have hsum : (points.set i (points.get i + d)).sum = points.sum + d := by
    rw [List.sum_set', dif_pos i.isLt]
    simp
  have hcross : ((points.set i (points.get i + d)).map fun pt => pt * ptᵀ).sum
      = (points.map fun pt => pt * ptᵀ).sum
        + (-(points.get i * (points.get i)ᵀ)
          + (points.get i + d) * (points.get i + d)ᵀ) := by
    rw [List.map_set, List.sum_set', dif_pos (by simp)]
    simp
  rw [build_eq_some eig points hne] at hb
  have hnum : (f.num_points : K) = (points.length : K) := by
    injection hb with hb
    rw [← hb]
    simp
  have hmean : f.mean = Matrix.of fun r c => points.sum r c / (points.length : K) := by
    injection hb with hb
    rw [← hb]
  have hcov : f.cov = Matrix.of fun r c =>
      ((points.map fun pt => pt * ptᵀ).sum
        - (Matrix.of fun r c => points.sum r c / (points.length : K)) * points.sumᵀ) r c
        / (points.length : K) := by
    injection hb with hb
    rw [← hb]
  refine ⟨_, ((2 : K) / (points.length : K)) • (points.get i - f.mean)ᵀ
      * col3 f.eigenvectors k * (col3 f.eigenvectors k)ᵀ,
    build_eq_some eig _ hne2, ?_, ?_⟩
  · simp only [Ji, hnum, fdiv_of_ne _ hN, Option.some_bind]
  · simp only [hsum, hcross, List.length_set, hcov, hmean]
    exact quadForm_perturb (points.length : K) hN _ _ d _ _

/-- C5, at a concrete input: the point `p_0` of `planePoints` moved by `(-2, 0, 0)`, `k = 0`. -/
theorem Ji_perturbation_witness :
    build planeEig planePoints = some planeFeature
      ∧ ∃ (f2 : BALMFeature ℚ) (J : RowVector3 ℚ),
          build planeEig
              (planePoints.set (⟨0, by decide⟩ : Fin planePoints.length)
                (planePoints.get ⟨0, by decide⟩ + planeP1)) = some f2
            ∧ Ji planeFeature 0 (planePoints.get ⟨0, by decide⟩) = some J
            ∧ quadForm (col3 planeFeature.eigenvectors 0) f2.cov
                - quadForm (col3 planeFeature.eigenvectors 0) planeFeature.cov
                = (J * planeP1) 0 0
                  + (((planePoints.length : ℚ) - 1) / (planePoints.length : ℚ) ^ 2)
                    * (((col3 planeFeature.eigenvectors 0)ᵀ * planeP1) 0 0) ^ 2 :=
  ⟨build_planePoints,
    Ji_perturbation planeEig planePoints planeFeature build_planePoints 0 ⟨0, by decide⟩ planeP1⟩

end gtsam_ext

namespace gtsam_points

open Matrix impl

variable {K : Type} [LinearOrderedField K]

/-! ### Sum of squared errors -/

theorem squaredNorm_nonneg (v : Vector4 K) : 0 ≤ squaredNorm v :=
  Finset.sum_nonneg fun i _ => mul_self_nonneg (v i 0)

theorem squaredNorm_eq_zero_iff (v : Vector4 K) : squaredNorm v = 0 ↔ v = 0 := by
  constructor
  · intro h
    have h2 := (Finset.sum_eq_zero_iff_of_nonneg
      (fun i _ => mul_self_nonneg (v i 0))).mp h
    ext i j
    obtain rfl : j = 0 := Subsingleton.elim _ _
    exact mul_self_eq_zero.mp (h2 i (Finset.mem_univ i))
  · rintro rfl
    simp [squaredNorm]

theorem sum_diffs_eq_sum (T : Isometry3 K) (target source : Vector4 K)
    (rest : List (Vector4 K × Vector4 K)) :
    sum_diffs T target source rest
      = (((target, source) :: rest).map fun ts => squaredNorm (ts.1 - T.apply ts.2)).sum := by
  induction rest generalizing target source with
  | nil => simp [sum_diffs]
  | cons x xs ih =>
    obtain ⟨t, s⟩ := x
    rw [sum_diffs, ih t s]
    simp

theorem sum_sqnorm_eq_zero_iff (T : Isometry3 K) (l : List (Vector4 K × Vector4 K)) :
    (l.map fun ts => squaredNorm (ts.1 - T.apply ts.2)).sum = 0
      ↔ ∀ ts ∈ l, ts.1 = T.apply ts.2 := by
  induction l with
  | nil => simp
  | cons x xs ih =>
    have hx : 0 ≤ squaredNorm (x.1 - T.apply x.2) := squaredNorm_nonneg _
    have hxs : 0 ≤ (xs.map fun ts => squaredNorm (ts.1 - T.apply ts.2)).sum :=
      List.sum_nonneg fun y hy => by
        obtain ⟨ts, _, rfl⟩ := List.mem_map.mp hy
        exact squaredNorm_nonneg _
    rw [List.map_cons, List.sum_cons, add_eq_zero_iff_of_nonneg hx hxs, ih,
      squaredNorm_eq_zero_iff, sub_eq_zero]
    simp

/-- C8. `impl::sum_sq_errors(T, target_1, source_1, ..., target_n, source_n)` is the total
`Σ ‖target_i - T * source_i‖²`; it is non-negative, it is zero exactly when
`target_i = T * source_i` for every pair, and so it is zero when every target is its source
mapped by `T`. -/
theorem sum_sq_errors_spec (T : Isometry3 K) (target source : Vector4 K)
    (rest : List (Vector4 K × Vector4 K)) :
    sum_sq_errors T target source rest
        = (((target, source) :: rest).map fun ts => squaredNorm (ts.1 - T.apply ts.2)).sum
      ∧ 0 ≤ sum_sq_errors T target source rest
      ∧ (sum_sq_errors T target source rest = 0
          ↔ ∀ ts ∈ (target, source) :: rest, ts.1 = T.apply ts.2)
      ∧ sum_sq_errors T (T.apply source) source (rest.map fun ts => (T.apply ts.2, ts.2)) = 0 := by
  refine ⟨sum_diffs_eq_sum T target source rest, ?_, ?_, ?_⟩
  · rw [sum_sq_errors, sum_diffs_eq_sum]
    exact List.sum_nonneg fun y hy => by
      obtain ⟨ts, _, rfl⟩ := List.mem_map.mp hy
      exact squaredNorm_nonneg _
  · rw [sum_sq_errors, sum_diffs_eq_sum, sum_sqnorm_eq_zero_iff]
  · rw [sum_sq_errors, sum_diffs_eq_sum, sum_sqnorm_eq_zero_iff]
    intro ts hts
    rcases List.mem_cons.mp hts with h | h
    · rw [h]
    · obtain ⟨y, _, rfl⟩ := List.mem_map.mp h
      rfl

theorem shiftX_pointA : shiftX.apply pointA = !![2; 2; 3; 1] := by
  ext i j
  fin_cases i <;>
    simp [Isometry3.apply, shiftX, pointA, Matrix.mul_apply, Fin.sum_univ_four,
      Matrix.vecHead, Matrix.vecTail]
  all_goals norm_num

/-- C8, at a concrete input: the translation by `(1, 0, 0)` with the pair
`((2, 2, 3, 1), (1, 2, 3, 1))`, whose target is the mapped source. -/
theorem sum_sq_errors_spec_witness :
    (∀ ts ∈ [((!![2; 2; 3; 1] : Vector4 ℚ), pointA)], ts.1 = shiftX.apply ts.2)
      ∧ sum_sq_errors shiftX !![2; 2; 3; 1] pointA [] = 0 :=
  ⟨by simp [shiftX_pointA],
    (sum_sq_errors_spec shiftX !![2; 2; 3; 1] pointA []).2.2.1.mpr (by simp [shiftX_pointA])⟩

end gtsam_points
